import Mathlib

/-!
Verification of the Refract photo-pipeline orchestration core.

This file gives a shallow embedding, in Lean 4, of the pure decision logic of
the Python sources of the repository, and proves the specification claims about it:

* `scripts/utils.py` — `retry_with_backoff` (retry classification and backoff)
* `scripts/multi_critic.py` — `BaseCritic._parse_response`,
  `MultiCritic.analyze`, `MultiCritic._merge_contexts`
* `scripts/editor.py` — `PhotoEditor._build_edit_prompt` (improvement parsing),
  `PhotoEditor._chunk_improvements`, `PhotoEditor.edit` (fallback policy)
* `scripts/pipeline.py` — `RefractPipeline.get_new_images`

Numbers that Python holds as `float` are modelled as rationals (`ℚ`).
Python string operations are re-implemented structurally over `List Char`;
they agree with CPython on the ASCII inputs all claims range over.
-/

namespace Refract

/-! ## Python string primitives (ASCII fragment) -/

/-- ASCII lower-casing of one character, as CPython `str.lower` does on ASCII. -/
def charLower (c : Char) : Char :=
  if 'A' ≤ c ∧ c ≤ 'Z' then Char.ofNat (c.toNat + 32) else c

/-- ASCII upper-casing of one character, as CPython `str.upper` does on ASCII. -/
def charUpper (c : Char) : Char :=
  if 'a' ≤ c ∧ c ≤ 'z' then Char.ofNat (c.toNat - 32) else c

/-- CPython whitespace for `str.strip` / regex `\s` (ASCII fragment). -/
def isSpace (c : Char) : Bool :=
  c = ' ' ∨ c = '\t' ∨ c = '\n' ∨ c = '\r' ∨ c = '\x0b' ∨ c = '\x0c'

/-- `s.lower()` -/
def pyLower (s : String) : String := ⟨s.data.map charLower⟩

/-- `s.upper()` -/
def pyUpper (s : String) : String := ⟨s.data.map charUpper⟩

/-- `s.strip()` -/
def pyStrip (s : String) : String :=
  ⟨((s.data.dropWhile isSpace).reverse.dropWhile isSpace).reverse⟩

/-- `s.lstrip()` (also regex `\s*` consumption at the start). -/
def pyLStrip (s : String) : String := ⟨s.data.dropWhile isSpace⟩

/-- Substring test on character lists: `p in l` for Python strings. -/
def listInfix (p : List Char) : List Char → Bool
  | [] => p.isEmpty
  | h :: t => (List.isPrefixOf p (h :: t)) || listInfix p t

/-- `p in s` for Python strings. -/
def pyContains (s p : String) : Bool := listInfix p.data s.data

/-- Python `str` comparison: lexicographic on code points. -/
def charListLE : List Char → List Char → Bool
  | [], _ => true
  | _ :: _, [] => false
  | a :: as, b :: bs =>
    if a.toNat < b.toNat then true
    else if b.toNat < a.toNat then false
    else charListLE as bs

/-- `s <= t` for Python strings. -/
def pyLE (s t : String) : Prop := charListLE s.data t.data = true

instance : DecidableRel pyLE := fun s t => by
  unfold pyLE; infer_instance

/-- `s.startswith(p)` -/
def pyStartsWith (s p : String) : Bool := List.isPrefixOf p.data s.data

/-! ## `scripts/utils.py` — `retry_with_backoff`

The decorator wraps an operation; successive invocations of the wrapped
operation are modelled as a function from the attempt index to the
outcome of the invocation (`.ok` value or `.error` message).  The embedding
returns the final outcome, the number of times the operation was invoked,
and the list of delays slept between invocations, in order. -/

/-- The retryable-error classifier of `retry_with_backoff` (utils.py lines
33-43): case-insensitive substring match of fixed patterns against the
error message. -/
def isRetryable (e : String) : Bool :=
  let m := pyLower e
  pyContains m ("rate limit") ||
  pyContains m ("quota") ||
  pyContains m ("too many requests") ||
  pyContains m ("429") ||
  pyContains m ("timeout") ||
  pyContains m ("temporarily unavailable") ||
  pyContains m ("service unavailable") ||
  pyContains m ("503") ||
  pyContains m ("500")

/-- One execution of the retry loop (utils.py lines 21-53).  Arguments:
the operation (attempt index ↦ outcome), the backoff factor, the current
attempt index, the retries still permitted after this attempt, and the
current delay.  Returns (outcome, total invocation count, delays slept). -/
def retryAux {α : Type} (op : Nat → Except String α) (factor : ℚ) :
    Nat → Nat → ℚ → Except String α × Nat × List ℚ
  | attempt, retriesLeft, delay =>
    match op attempt with
    | .ok v => (.ok v, attempt + 1, [])
    | .error e =>
      match retriesLeft with
      | 0 => (.error e, attempt + 1, [])
      | n + 1 =>
        if isRetryable e then
          let r := retryAux op factor (attempt + 1) n (delay * factor)
          (r.1, r.2.1, delay :: r.2.2)
        else (.error e, attempt + 1, [])

/-- `retry_with_backoff(max_retries, initial_delay, backoff_factor)` applied
to an operation: at most `maxRetries` re-invocations after the first call. -/
def retry_with_backoff {α : Type} (op : Nat → Except String α)
    (maxRetries : Nat) (initialDelay factor : ℚ) :
    Except String α × Nat × List ℚ :=
  retryAux op factor 0 maxRetries initialDelay

/-- The delays the policy sleeps before the first `k` retries:
`initial_delay` multiplied by `backoff_factor` after each attempt. -/
def geomDelays (d f : ℚ) (k : Nat) : List ℚ :=
  (List.range k).map (fun j => d * f ^ j)

/-- The retryable-pattern set exactly as the sentence of the spec lists it
(it omits the too-many-requests pattern that utils.py also matches). -/
def claimedRetryable (e : String) : Bool :=
  let m := pyLower e
  pyContains m ("rate limit") ||
  pyContains m ("quota") ||
  pyContains m ("429") ||
  pyContains m ("timeout") ||
  pyContains m ("temporarily unavailable") ||
  pyContains m ("service unavailable") ||
  pyContains m ("503") ||
  pyContains m ("500")

/-! ## `scripts/multi_critic.py` — `BaseCritic._parse_response`

The function is embedded from the point where `json.loads` has produced a
JSON value; the claims quantify over responses whose body parses as JSON.
`JVal` is the JSON value model (`boolean` is kept separate because
the CPython check isinstance on int and float also accepts bool). -/

inductive JVal : Type where
  | num (q : ℚ)
  | str (s : String)
  | boolean (b : Bool)
  | null
  | arr (items : List JVal)
  | obj (fields : List (String × JVal))

/-- `isinstance(x, dict)` -/
def JVal.isObj : JVal → Bool
  | .obj _ => true
  | _ => false

/-- `float(x)` on a value accepted by `isinstance(x, (int, float))`. -/
def JVal.numVal : JVal → Option ℚ
  | .num q => some q
  | .boolean b => some (if b then 1 else 0)
  | _ => none

/-- Dictionary lookup (JSON objects have unique keys). -/
def jget (fields : List (String × JVal)) (k : String) : Option JVal :=
  List.lookup k fields

/-- The priority sort key with default 5 (multi_critic.py line 128).
A present non-numeric priority would make the CPython sort raise
a type error; that corner is outside every claim and is defaulted here. -/
def getPriority (v : JVal) : ℚ :=
  match v with
  | .obj fields =>
    match jget fields ("priority") with
    | some (.num q) => q
    | some (.boolean b) => if b then 1 else 0
    | _ => 5
  | _ => 5

/-- The intensity field with default moderate (a present non-string
intensity would make the CPython upper-casing raise; defaulted here,
outside every claim). -/
def getIntensity (v : JVal) : String :=
  match v with
  | .obj fields =>
    match jget fields ("intensity") with
    | some (.str s) => s
    | _ => "moderate"
  | _ => "moderate"

/-- The action field with default empty string. -/
def getAction (v : JVal) : String :=
  match v with
  | .obj fields =>
    match jget fields ("action") with
    | some (.str s) => s
    | _ => ""
  | _ => ""

/-- The intensity-tagged rewrite applied to each structured improvement:
upper-cased intensity in brackets, then the action (multi_critic.py
line 134). -/
def renderImprovement (v : JVal) : String :=
  "[" ++ pyUpper (getIntensity v) ++ "] " ++ getAction v

/-- Ascending priority order on structured improvements. -/
def prioLE (a b : JVal) : Prop := getPriority a ≤ getPriority b

instance : DecidableRel prioLE := fun a b => by
  unfold prioLE; infer_instance

/-- The CPython built-in sort is a stable sort on a total preorder; so is
`List.insertionSort`. -/
def sortByPriority (l : List JVal) : List JVal := List.insertionSort prioLE l

/-- The structured-improvements conversion (multi_critic.py lines 122-136):
if the list is non-empty and its first entry is a dict, sort all entries by
priority and rewrite each to an intensity-tagged string, keeping the sorted
structured list; otherwise leave the list unchanged.  When the first entry
is a dict but a later one is not, CPython raises `AttributeError` while
evaluating the sort key, which surfaces as a parse failure. -/
def handleImprovements (l : List JVal) :
    Except String (List JVal × List JVal) :=
  match l with
  | .obj _ :: _ =>
    if l.all JVal.isObj then
      let sorted := sortByPriority l
      .ok (sorted.map (fun o => JVal.str (renderImprovement o)), sorted)
    else .error ("improvement entry is not a dict")
  | _ => .ok (l, [])

/-- The per-critique context block (multi_critic.py lines 139-145).
`technical` keeps only string-valued assessment entries; the merge step
only ever reads string values. -/
structure Ctx : Type where
  genre : String
  subject : String
  mood : String
  preserve : List String
  technical : List (String × String)
deriving DecidableEq, Repr

/-- `critique.get(key, default)` for the string-valued context fields. -/
def jgetStr (fields : List (String × JVal)) (k dflt : String) : String :=
  match jget fields k with
  | some (.str s) => s
  | _ => dflt

/-- The preserve field with default empty list, keeping string entries. -/
def jgetStrList (fields : List (String × JVal)) (k : String) : List String :=
  match jget fields k with
  | some (.arr items) =>
    items.filterMap (fun v => match v with | .str s => some s | _ => none)
  | _ => []

/-- The technical-assessment field with default empty dict, keeping
string-valued keys. -/
def jgetStrMap (fields : List (String × JVal)) (k : String) :
    List (String × String) :=
  match jget fields k with
  | some (.obj kvs) =>
    kvs.filterMap (fun kv =>
      match kv.2 with | .str s => some (kv.1, s) | _ => none)
  | _ => []

/-- The context block assembled by parse (multi_critic.py lines 139-145). -/
def mkContext (fields : List (String × JVal)) : Ctx :=
  { genre := jgetStr fields ("genre") ("unknown")
    subject := jgetStr fields ("subject") ("")
    mood := jgetStr fields ("mood") ("")
    preserve := jgetStrList fields ("preserve")
    technical := jgetStrMap fields ("technical_assessment") }

/-- The validated, normalized critique produced by `_parse_response`. -/
structure ParsedCritique : Type where
  score : ℚ
  improvements : List JVal
  improvementsDetailed : List JVal
  notes : String
  context : Ctx

/-- `BaseCritic._parse_response` (multi_critic.py lines 104-147), from the
parsed JSON value on: required-key check, type validation, score clamping,
structured-improvements conversion, context extraction. -/
def parse_response (j : JVal) : Except String ParsedCritique :=
  match j with
  | .obj fields =>
    match jget fields ("score"), jget fields ("improvements"),
        jget fields ("notes") with
    | some sv, some iv, some nv =>
      match sv.numVal with
      | none => .error ("Score must be a number")
      | some s =>
        match iv with
        | .arr l =>
          match nv with
          | .str notes =>
            match handleImprovements l with
            | .error e => .error e
            | .ok (imps, dets) =>
              .ok { score := max 0 (min 100 s)
                    improvements := imps
                    improvementsDetailed := dets
                    notes := notes
                    context := mkContext fields }
          | _ => .error ("Notes must be a string")
        | _ => .error ("Improvements must be a list")
    | _, _, _ => .error ("Missing required keys")
  | _ => .error ("response is not a JSON object")

/-! ## `scripts/multi_critic.py` — `MultiCritic.analyze` and `_merge_contexts`

`analyze` consumes the outcome of the analyze call of each configured critic
(all of which return `_parse_response` output).  A critic outcome is
modelled as the critic name together with `Except`: `.error` for a raised
exception, `.ok` for a parsed critique.  The critique shape at this level
fixes the fields `analyze` reads; `improvements` entries are strings, as
the structured path guarantees and the claims assume. -/

structure Critique : Type where
  score : ℚ
  improvements : List String
  improvementsDetailed : List JVal
  notes : String
  context : Ctx

/-- `imp.lower().strip()` — the dedup normalization (multi_critic.py line 362). -/
def normImp (s : String) : String := pyStrip (pyLower s)

/-- The seen-set dedup loop of `analyze` (multi_critic.py lines 359-365).
The Python `set` holds normalized strings; membership is all that is used,
so a list suffices. -/
def dedupLoop (seen : List String) : List String → List String
  | [] => []
  | imp :: rest =>
    if normImp imp ∈ seen then dedupLoop seen rest
    else imp :: dedupLoop (normImp imp :: seen) rest

/-- Specification-side dedup: keep each first occurrence, drop every later
entry with the same normalized key. -/
def specDedup : List String → List String
  | [] => []
  | x :: xs => x :: specDedup (xs.filter (fun y => normImp y ≠ normImp x))
termination_by l => l.length
decreasing_by
  simp only [List.length_cons]
  exact Nat.lt_succ_of_le (List.length_filter_le _ _)

/-- Round-half-even to an integer, the rounding the CPython round
built-in uses. -/
def roundHalfEven (q : ℚ) : ℤ :=
  let f : ℤ := ⌊q⌋
  if q - f < 1 / 2 then f
  else if 1 / 2 < q - f then f + 1
  else if f % 2 = 0 then f else f + 1

/-- `round(x, 1)` (multi_critic.py lines 375, 381). -/
def roundTo1 (q : ℚ) : ℚ := (roundHalfEven (10 * q) : ℚ) / 10

/-- First-occurrence-order deduplication with an arbitrary key.
`dedupKey id` is `dict.fromkeys` order-preserving dedup
(multi_critic.py line 407); it also models iterating a `set` built from a
list (CPython iterates a `set` in an unspecified, hash-dependent order;
first-occurrence order is the fixed enumeration used here). -/
def dedupKey (key : String → String) : List String → List String
  | [] => []
  | x :: xs => x :: dedupKey key (xs.filter (fun y => key y ≠ key x))
termination_by l => l.length
decreasing_by
  simp only [List.length_cons]
  exact Nat.lt_succ_of_le (List.length_filter_le _ _)

/-- CPython `max(iterable, key=f)`: scan keeping the current best, replacing
it only when a strictly larger key appears — the first maximum wins. -/
def firstMaxAux (f : String → Nat) (cur : String) : List String → String
  | [] => cur
  | y :: ys => firstMaxAux f (if f cur < f y then y else cur) ys

/-- `max(l, key=f)` for non-empty `l`, `none` for empty `l`. -/
def firstMax (f : String → Nat) : List String → Option String
  | [] => none
  | x :: xs => some (firstMaxAux f x xs)

/-- The four technical-assessment keys merged by `_merge_contexts`. -/
def techFields : List String := ["exposure", "white_balance", "focus", "noise"]

/-- The non-empty genre values reported across critics
(the genre fields filtered by truthiness, multi_critic.py line 392). -/
def genresOf (contexts : List Ctx) : List String :=
  contexts.filterMap (fun c => if c.genre = "" then none else some c.genre)

/-- The non-empty subjects reported across critics. -/
def subjectsOf (contexts : List Ctx) : List String :=
  contexts.filterMap (fun c => if c.subject = "" then none else some c.subject)

/-- The non-empty moods reported across critics. -/
def moodsOf (contexts : List Ctx) : List String :=
  contexts.filterMap (fun c => if c.mood = "" then none else some c.mood)

/-- All preserve entries across critics, in backend order. -/
def preservesOf (contexts : List Ctx) : List String :=
  (contexts.map Ctx.preserve).flatten

/-- The non-empty values reported for one technical field across critics
(the per-field values filtered by truthiness, multi_critic.py line 413). -/
def techValuesOf (contexts : List Ctx) (fld : String) : List String :=
  contexts.filterMap (fun c =>
    match List.lookup fld c.technical with
    | some v => if v = "" then none else some v
    | none => none)

/-- What iterating a CPython `set` built from `values` yields: some
enumeration of exactly the distinct elements of `values`.  CPython fixes no
order (string hashing is randomized per process), so the embedding
quantifies over every enumeration an execution could produce. -/
def SetEnum (values enumerated : List String) : Prop :=
  enumerated.Nodup ∧ ∀ x, x ∈ enumerated ↔ x ∈ values

/-- `max(set(values), key=values.count)`, with `enum` standing for the
unspecified order in which CPython iterates the `set` (see `SetEnum`). -/
def mostCommon (enum : List String → List String) (values : List String) :
    Option String :=
  firstMax (fun v => values.count v) (enum values)

/-- `MultiCritic._merge_contexts` (multi_critic.py lines 386-423) on a
non-empty context list (the caller guards emptiness, see `analyze`);
`enum` is the set-iteration order of the execution being modelled. -/
def merge_contexts (enum : List String → List String)
    (contexts : List Ctx) : Ctx :=
  { genre := (mostCommon enum (genresOf contexts)).getD ("unknown")
    subject := (firstMax String.length (subjectsOf contexts)).getD ("")
    mood := (firstMax String.length (moodsOf contexts)).getD ("")
    preserve := dedupKey id (preservesOf contexts)
    technical := techFields.filterMap (fun fld =>
      (mostCommon enum (techValuesOf contexts fld)).map (fun v => (fld, v))) }

/-- The per-critic loop of `analyze` (multi_critic.py lines 330-352):
successful critiques contribute their score, improvements, detailed
improvements, bracketed notes and context, in backend order; failures
contribute nothing to these accumulators. -/
structure Gathered : Type where
  scores : List ℚ
  allImprovements : List String
  allDetailed : List JVal
  allNotes : List String
  contexts : List Ctx

/-- The note tagged with the upper-cased critic name in brackets
(multi_critic.py line 342). -/
def bracketNote (name notes : String) : String :=
  "[" ++ pyUpper name ++ "] " ++ notes

/-- Accumulation pass of `analyze` over the critic outcomes. -/
def gather : List (String × Except String Critique) → Gathered
  | [] => ⟨[], [], [], [], []⟩
  | (name, res) :: rest =>
    let g := gather rest
    match res with
    | .ok c =>
      ⟨c.score :: g.scores, c.improvements ++ g.allImprovements,
        c.improvementsDetailed ++ g.allDetailed,
        bracketNote name c.notes :: g.allNotes, c.context :: g.contexts⟩
    | .error _ => g

/-- The aggregate record `analyze` returns (multi_critic.py lines 373-384).
`critiques` echoes the per-backend outcomes. -/
structure AnalyzeResult : Type where
  critiques : List (String × Except String Critique)
  consensus_score : ℚ
  combined_improvements : List String
  improvements_detailed : List JVal
  context : Option Ctx
  summary : String
  score : ℚ
  improvements : List String
  notes : String

/-- `MultiCritic.analyze` (multi_critic.py lines 309-384) as a function of
the per-critic outcomes.  `scores` only ever receives non-null values, so
the `valid_scores` filter keeps the whole list.  `enum` is the
set-iteration order the context merge observes (see `SetEnum`); no other
output field depends on it. -/
def analyze (enum : List String → List String)
    (results : List (String × Except String Critique)) : AnalyzeResult :=
  let g := gather results
  let validScores := g.scores
  let consensus : ℚ :=
    if validScores = [] then 0 else validScores.sum / validScores.length
  let unique := dedupLoop [] g.allImprovements
  let summary :=
    if g.allNotes = [] then "No critiques available"
    else String.intercalate (" | ") g.allNotes
  let merged : Option Ctx :=
    if g.contexts = [] then none else some (merge_contexts enum g.contexts)
  { critiques := results
    consensus_score := roundTo1 consensus
    combined_improvements := unique
    improvements_detailed := g.allDetailed
    context := merged
    summary := summary
    score := roundTo1 consensus
    improvements := unique.take 5
    notes := summary }

/-- The scores of the critics that succeeded, in backend order. -/
def successScores (results : List (String × Except String Critique)) : List ℚ :=
  results.filterMap (fun r => r.2.toOption.map Critique.score)

/-- The improvements of the critics that succeeded, concatenated in backend
order. -/
def allSuccessImprovements
    (results : List (String × Except String Critique)) : List String :=
  (results.filterMap (fun r => r.2.toOption.map Critique.improvements)).flatten

/-! ## `scripts/editor.py` — `PhotoEditor` -/

/-- The intensity keywords of `_IMPROVEMENT_TAG_RE` (editor.py lines 23-26). -/
def intensityTags : List String :=
  ["subtle", "moderate", "significant", "strong", "major", "minor",
    "severe", "light", "heavy"]

/-- Case-insensitive match of `^\s*\[(tag)\]` (the trailing whitespace consumption of the regex is
absorbed by the strip applied to the remainder).  Returns the matched
tag (lower-case, as lower-casing the matched group yields for these tags) and the
text after the closing bracket.  No tag is a prefix of another, so at most
one alternative matches. -/
def matchTag (s : String) : Option (String × String) :=
  let t := pyLStrip s
  if pyStartsWith t ("[") then
    let u : String := ⟨t.data.drop 1⟩
    intensityTags.findSome? (fun tag =>
      if pyLower ⟨u.data.take tag.length⟩ = tag ∧
          pyStartsWith ⟨u.data.drop tag.length⟩ ("]") then
        some (tag, ⟨u.data.drop (tag.length + 1)⟩)
      else none)
  else none

/-- One iteration of the improvement parse in `_build_edit_prompt`
(editor.py lines 66-77): `(action, intensity)`, or `none` when the action
text is empty after stripping. -/
def parsePromptImprovement (imp : String) : Option (String × String) :=
  let p := match matchTag imp with
    | some (intensity, rest) => (pyStrip rest, intensity)
    | none => (pyStrip imp, "moderate")
  if p.1 = "" then none else some p

/-- The default "natural polish" action synthesized when nothing parses
(editor.py lines 79-82). -/
def defaultPromptImprovement : String × String :=
  ("Apply a subtle, natural polish only if needed (exposure/contrast/white balance).",
    "subtle")

/-- The parsed improvement list `_build_edit_prompt` enumerates into the
prompt (editor.py lines 65-87). -/
def promptImprovements (improvements : List String) : List (String × String) :=
  let parsed := improvements.filterMap parsePromptImprovement
  if parsed = [] then [defaultPromptImprovement] else parsed

/-- `PhotoEditor._chunk_improvements` (editor.py lines 243-248); the
constructor guarantees `max_passes ≥ 1` via `max(1, int(env))`. -/
def chunkList (cs : Nat) : List String → List (List String)
  | [] => []
  | x :: xs => ((x :: xs).take cs) :: chunkList cs (xs.drop (cs - 1))
termination_by l => l.length
decreasing_by
  simp only [List.length_cons, List.length_drop]
  omega

/-- `_chunk_improvements` itself: the Python slice loop
`[improvements[i:i+chunk_size] for i in range(0, len(improvements), chunk_size)]`
is `chunkList chunk_size` for a positive chunk size. -/
def chunk_improvements (maxPasses : Nat) (improvements : List String) :
    List (List String) :=
  if maxPasses ≤ 1 ∨ improvements.length ≤ 1 then [improvements]
  else
    let cs := max 1 ((improvements.length + maxPasses - 1) / maxPasses)
    chunkList cs improvements

/-- What one generation pass yields, as `edit` observes it (editor.py lines
368-384): the extracted inline image data may be absent, present but
undecodable, or present and decodable; the generate call itself may raise. -/
inductive PassOutcome : Type where
  | raised
  | noData
  | decodeFail (bytes : List Nat)
  | ok (bytes : List Nat)

/-- The environment of one `edit` call: the outcome each generation pass
would produce, whether saved generated bytes pass `Image.verify`, whether
the PIL fallback enhancement saves and validates (deterministic, so both
fallback attempts agree), and whether the source image opens. -/
structure EditEnv : Type where
  outcomes : Nat → PassOutcome
  verifies : List Nat → Bool
  fallbackOk : Bool
  openOk : Bool

/-- The multi-pass generation loop of `edit` (editor.py lines 359-384):
`image_data` starts absent, a pass with no usable data clears it and breaks,
a raising pass aborts into the exception handler, and a clean run keeps the
the bytes of the last pass.  an `.error` result means an exception escaped the loop. -/
def passLoop (outcomes : Nat → PassOutcome) (acc : Option (List Nat)) :
    Nat → Nat → Except Unit (Option (List Nat))
  | _, 0 => .ok acc
  | i, n + 1 =>
    match outcomes i with
    | .raised => .error ()
    | .noData => .ok none
    | .decodeFail _ => .ok none
    | .ok d => passLoop outcomes (some d) (i + 1) n

/-- What `edit` saved: generated bytes, or the fallback enhancement. -/
inductive EditFinal : Type where
  | generated (bytes : List Nat)
  | fallback

/-- The byte-size/verify sanity check on generated data (editor.py lines
386-398): `image_data and len(image_data) > 100` and `Image.verify`. -/
def savedGenerated (env : EditEnv) : Option (List Nat) → Option (List Nat)
  | some d => if 100 < d.length ∧ env.verifies d = true then some d else none
  | none => none

/-- The fallback path (editor.py lines 400-411 inside `try`, retried at
lines 416-430 in the handler): the deterministic PIL enhancement is saved
and validated; it succeeds or the whole call fails. -/
def fallbackResult (env : EditEnv) : Bool × Option EditFinal :=
  if env.fallbackOk then (true, some .fallback) else (false, none)

/-- `PhotoEditor.edit` (editor.py lines 332-430), reduced to its
success/fallback decision structure: returns (reported success, what was
saved).  `numPasses` is the number of chunks `_chunk_improvements`
produced. -/
def edit (env : EditEnv) (numPasses : Nat) : Bool × Option EditFinal :=
  if env.openOk then
    match passLoop env.outcomes none 0 numPasses with
    | .error _ => fallbackResult env
    | .ok dataOpt =>
      match savedGenerated env dataOpt with
      | some d => (true, some (.generated d))
      | none => fallbackResult env
  else (false, none)

/-- No generation pass produced valid image bytes: the loop finished (did
not raise) but nothing passed the sanity check — missing data, decode
failure, or byte-size/verify failure. -/
def noValidGenerated (env : EditEnv) (numPasses : Nat) : Prop :=
  ∃ dataOpt, passLoop env.outcomes none 0 numPasses = .ok dataOpt ∧
    savedGenerated env dataOpt = none

/-! ## `scripts/pipeline.py` — `RefractPipeline.get_new_images` -/

/-- One inbox directory entry, as `iterdir` yields it. -/
structure DirEntry : Type where
  name : String
  isFile : Bool
deriving DecidableEq, Repr

/-- CPython `PurePath.suffix`: the part of the name from the last dot on,
empty when the last dot is the first or last character. -/
def pathSuffix (name : String) : String :=
  let cs := name.data
  match (cs.reverse.takeWhile (fun c => c ≠ '.')).length, cs.length with
  | _, 0 => ""
  | tail, n =>
    -- with i the index of the last dot: suffix iff 0 < i < n - 1
    if tail = n then ""                 -- no dot at all
    else
      let i := n - tail - 1
      if 0 < i ∧ i < n - 1 then ⟨cs.drop i⟩ else ""

/-- The recognized extension set (pipeline.py lines 101-108): explicit
lower-case and upper-case variants, HEIC/HEIF only with the optional
decoder. -/
def imageExtensions (heic : Bool) : List String :=
  [".jpg", ".jpeg", ".png", ".webp", ".JPG", ".JPEG", ".PNG", ".WEBP"] ++
    (if heic then [".heic", ".heif", ".HEIC", ".HEIF"] else [])

/-- `RefractPipeline.get_new_images` (pipeline.py lines 95-118): keep plain
files with a recognized suffix that are not hidden, sorted by name. -/
def get_new_images (heic : Bool) (entries : List DirEntry) : List String :=
  List.insertionSort pyLE
    ((entries.filter (fun e =>
      e.isFile ∧ pathSuffix e.name ∈ imageExtensions heic ∧
        pyStartsWith e.name (".") = false)).map DirEntry.name)

/-- The case-insensitive extension set the claim describes. -/
def claimedExtensions (heic : Bool) : List String :=
  [".jpg", ".jpeg", ".png", ".webp"] ++ (if heic then [".heic", ".heif"] else [])

/-- Image discovery as the claim describes it: extensions matched
case-insensitively. -/
def claimedDiscovery (heic : Bool) (entries : List DirEntry) : List String :=
  List.insertionSort pyLE
    ((entries.filter (fun e =>
      e.isFile ∧ pyLower (pathSuffix e.name) ∈ claimedExtensions heic ∧
        pyStartsWith e.name (".") = false)).map DirEntry.name)

/-! ## Specification-side predicates and concrete test inputs -/

/-- What first-occurrence deduplication under `normImp` means: the output is
a subsequence of the input (original text, first-seen order), its normalized
keys are pairwise distinct, every input entry has a representative with its
key, and every kept entry is the first input entry bearing its key. -/
def firstOccurrenceDedup (all combined : List String) : Prop :=
  combined.Sublist all ∧
  (combined.map normImp).Nodup ∧
  (∀ x ∈ all, ∃ y ∈ combined, normImp y = normImp x) ∧
  (∀ y ∈ combined, all.find? (fun z => decide (normImp z = normImp y)) = some y)

/-- An empty default context, as parse produces when the optional fields are
absent. -/
def defaultCtx : Ctx := ⟨"unknown", "", "", [], []⟩

/-- A critique with the given score and no other content, for the worked
consensus examples. -/
def critWithScore (q : ℚ) : Critique := ⟨q, [], [], "", defaultCtx⟩

/-- A critique carrying the improvement list of the worked dedup example. -/
def critBoost : Critique :=
  ⟨80, ["Boost contrast", "Boost contrast", "boost CONTRAST "], [], "", defaultCtx⟩

/-- An operation that raises a 429 error twice, then succeeds. -/
def exampleOp429 : Nat → Except String Nat :=
  fun n => if n < 2 then .error ("429 too many requests") else .ok 7

/-- An operation that always raises a non-retryable error. -/
def exampleOpBad : Nat → Except String Nat := fun _ => .error ("bad input")

/-- A response whose score exceeds 100. -/
def jOver : JVal :=
  .obj [("score", .num 150), ("improvements", .arr []), ("notes", .str "")]

/-- The critique `parse_response` produces for `jOver`. -/
def cOver : ParsedCritique := ⟨100, [], [], "", defaultCtx⟩

/-- A valid response whose improvements list is empty. -/
def jEmptyImp : JVal :=
  .obj [("score", .num 50), ("improvements", .arr []), ("notes", .str "x")]

/-- The critique `parse_response` produces for `jEmptyImp`. -/
def cEmptyImp : ParsedCritique := ⟨50, [], [], "x", defaultCtx⟩

/-- Structured improvement with priority 3. -/
def impLow : JVal :=
  .obj [("action", .str "Low priority"), ("intensity", .str "subtle"),
    ("priority", .num 3), ("reason", .str "")]

/-- Structured improvement with priority 1. -/
def impHigh : JVal :=
  .obj [("action", .str "High priority"), ("intensity", .str "significant"),
    ("priority", .num 1), ("reason", .str "")]

/-- Structured improvement with priority 2. -/
def impMed : JVal :=
  .obj [("action", .str "Medium priority"), ("intensity", .str "moderate"),
    ("priority", .num 2), ("reason", .str "")]

/-- The fields of a response carrying structured improvements with
priorities [3, 1, 2] (the worked example of the claim, mirroring the
repository test test_structured_improvements_sorted_by_priority). -/
def fieldsPrio : List (String × JVal) :=
  [("score", .num 80), ("improvements", .arr [impLow, impHigh, impMed]),
    ("notes", .str "Test")]

/-- The response built from `fieldsPrio`. -/
def jPrio : JVal := .obj fieldsPrio

/-- The critique `parse_response` produces for `jPrio`: improvements
rewritten and ordered priority-1, priority-2, priority-3, the sorted
structured list retained in improvementsDetailed. -/
def cPrio : ParsedCritique :=
  ⟨80,
    [.str ("[SIGNIFICANT] High priority"), .str ("[MODERATE] Medium priority"),
      .str ("[SUBTLE] Low priority")],
    [impHigh, impMed, impLow], "Test", defaultCtx⟩

/-- An edit environment in which every generation pass yields no image data
and the fallback succeeds. -/
def fbEnv : EditEnv :=
  { outcomes := fun _ => .noData
    verifies := fun _ => false
    fallbackOk := true
    openOk := true }

/-- A concrete context for the merge witness. -/
def ctxA : Ctx :=
  ⟨"portrait", "cat on a sofa", "calm", ["fur texture"], [("exposure", "good")]⟩

/-- A second concrete context for the merge witness. -/
def ctxB : Ctx :=
  ⟨"portrait", "cat", "serene and quiet", ["fur texture", "eyes"],
    [("exposure", "good"), ("focus", "sharp")]⟩

/-- A context reporting only the genre portrait. -/
def ctxP : Ctx := ⟨"portrait", "", "", [], []⟩

/-- A context reporting only the genre landscape. -/
def ctxL : Ctx := ⟨"landscape", "", "", [], []⟩

/-- A set-iteration order a CPython execution could produce: it enumerates
the two tied genres of `[ctxP, ctxL]` with the later-encountered one first,
and every other set in first-occurrence order.  Every value it returns is a
valid set enumeration. -/
def enumSwap : List String → List String := fun values =>
  if values = ["portrait", "landscape"] then ["landscape", "portrait"]
  else dedupKey id values

/-- The fields of a response carrying plain-string improvements (mirroring
the repository test test_legacy_string_improvements_still_work). -/
def fieldsLegacy : List (String × JVal) :=
  [("score", .num 75),
    ("improvements", .arr [.str ("Increase brightness"), .str ("Boost contrast")]),
    ("notes", .str "Good shot.")]

/-- The critique `parse_response` produces for the plain-string response:
the improvements are left unchanged and no detailed list is produced. -/
def cLegacy : ParsedCritique :=
  ⟨75, [.str ("Increase brightness"), .str ("Boost contrast")], [],
    "Good shot.", defaultCtx⟩

instance : IsTotal JVal prioLE :=
  ⟨fun a b => le_total (getPriority a) (getPriority b)⟩

instance : IsTrans JVal prioLE :=
  ⟨fun _ _ _ hab hbc => le_trans hab hbc⟩

instance : IsTotal String pyLE := by
  constructor
  intro s t
  show charListLE s.data t.data = true ∨ charListLE t.data s.data = true
  generalize s.data = as
  generalize t.data = bs
  induction as generalizing bs with
  | nil => left; rfl
  | cons a as ih =>
    cases bs with
    | nil => right; rfl
    | cons b bs =>
      simp only [charListLE]
      rcases Nat.lt_trichotomy a.toNat b.toNat with h | h | h
      · left; simp [h]
      · have h2 : ¬ a.toNat < b.toNat := by omega
        have h3 : ¬ b.toNat < a.toNat := by omega
        simpa [h2, h3] using ih bs
      · right; simp [h]

instance : IsTrans String pyLE := by
  constructor
  intro s t u
  show charListLE s.data t.data = true → charListLE t.data u.data = true →
    charListLE s.data u.data = true
  generalize s.data = as
  generalize t.data = bs
  generalize u.data = cs
  induction as generalizing bs cs with
  | nil => intro _ _; rfl
  | cons a as ih =>
    intro h1 h2
    cases bs with
    | nil => simp [charListLE] at h1
    | cons b bs =>
      cases cs with
      | nil => simp [charListLE] at h2
      | cons c cs =>
        simp only [charListLE] at h1 h2 ⊢
        rcases Nat.lt_trichotomy a.toNat b.toNat with hab | hab | hab
        · rcases Nat.lt_trichotomy b.toNat c.toNat with hbc | hbc | hbc
          · rw [if_pos (by omega)]
          · rw [if_pos (by omega)]
          · rw [if_neg (by omega), if_pos (by omega)] at h2
            exact absurd h2 (by simp)
        · rcases Nat.lt_trichotomy b.toNat c.toNat with hbc | hbc | hbc
          · rw [if_pos (by omega)]
          · rw [if_neg (by omega), if_neg (by omega)] at h1
            rw [if_neg (by omega), if_neg (by omega)] at h2
            rw [if_neg (by omega), if_neg (by omega)]
            exact ih bs cs h1 h2
          · rw [if_neg (by omega), if_pos (by omega)] at h2
            exact absurd h2 (by simp)
        · rw [if_neg (by omega), if_pos (by omega)] at h1
          exact absurd h1 (by simp)

/-! ## Helper lemmas -/

theorem gather_scores (results : List (String × Except String Critique)) :
    (gather results).scores = successScores results := by
  induction results with
  | nil => rfl
  | cons r rest ih =>
    obtain ⟨name, res⟩ := r
    cases res with
    | ok c =>
      simp [gather, successScores, List.filterMap_cons, Except.toOption, ih]
    | error e =>
      simp [gather, successScores, List.filterMap_cons, Except.toOption, ih]

theorem gather_improvements (results : List (String × Except String Critique)) :
    (gather results).allImprovements = allSuccessImprovements results := by
  induction results with
  | nil => rfl
  | cons r rest ih =>
    obtain ⟨name, res⟩ := r
    cases res with
    | ok c =>
      simp [gather, allSuccessImprovements, List.filterMap_cons, Except.toOption,
        List.flatten_cons, ih]
    | error e =>
      simp [gather, allSuccessImprovements, List.filterMap_cons, Except.toOption,
        List.flatten_cons, ih]

theorem roundTo1_zero : roundTo1 0 = 0 := by
  norm_num [roundTo1, roundHalfEven]

theorem dedupLoop_sublist (l : List String) :
    ∀ seen, (dedupLoop seen l).Sublist l := by
  induction l with
  | nil => intro seen; simp [dedupLoop]
  | cons x xs ih =>
    intro seen
    simp only [dedupLoop]
    split
    · exact (ih seen).trans (List.sublist_cons_self x xs)
    · exact (ih _).cons₂ x

theorem dedupLoop_keys_fresh (l : List String) :
    ∀ seen y, y ∈ dedupLoop seen l → normImp y ∉ seen := by
  induction l with
  | nil => intro seen y hy; simp [dedupLoop] at hy
  | cons x xs ih =>
    intro seen y hy
    simp only [dedupLoop] at hy
    split at hy
    · exact ih seen y hy
    · rcases List.mem_cons.mp hy with rfl | hy
      · assumption
      · intro hc
        exact ih _ y hy (List.mem_cons_of_mem _ hc)

theorem dedupLoop_keys_nodup (l : List String) :
    ∀ seen, ((dedupLoop seen l).map normImp).Nodup := by
  induction l with
  | nil => intro seen; simp [dedupLoop]
  | cons x xs ih =>
    intro seen
    simp only [dedupLoop]
    split
    · exact ih seen
    · refine List.Nodup.cons ?_ (ih _)
      intro hc
      rcases List.mem_map.mp hc with ⟨y, hy, hkey⟩
      exact dedupLoop_keys_fresh xs _ y hy (by rw [hkey]; exact List.mem_cons_self _ _)

theorem dedupLoop_covers (l : List String) :
    ∀ seen x, x ∈ l →
      normImp x ∈ seen ∨ ∃ y ∈ dedupLoop seen l, normImp y = normImp x := by
  induction l with
  | nil => intro seen x hx; simp at hx
  | cons a xs ih =>
    intro seen x hx
    simp only [dedupLoop]
    rcases List.mem_cons.mp hx with rfl | hx
    · split
      · left; assumption
      · right; exact ⟨x, List.mem_cons_self _ _, rfl⟩
    · split
      · exact ih seen x hx
      · rcases ih (normImp a :: seen) x hx with hmem | ⟨y, hy, hkey⟩
        · rcases List.mem_cons.mp hmem with heq | hmem
          · right; exact ⟨a, List.mem_cons_self _ _, heq.symm⟩
          · left; exact hmem
        · right; exact ⟨y, List.mem_cons_of_mem _ hy, hkey⟩

theorem dedupLoop_first (l : List String) :
    ∀ seen y, y ∈ dedupLoop seen l →
      l.find? (fun z => decide (normImp z = normImp y)) = some y := by
  induction l with
  | nil => intro seen y hy; simp [dedupLoop] at hy
  | cons a xs ih =>
    intro seen y hy
    simp only [dedupLoop] at hy
    split at hy
    · have hne : normImp a ≠ normImp y := by
        intro heq
        exact dedupLoop_keys_fresh xs seen y hy (heq ▸ (by assumption))
      rw [List.find?_cons_of_neg _ (by simpa using hne), ih seen y hy]
    · rcases List.mem_cons.mp hy with rfl | hy
      · exact List.find?_cons_of_pos _ (by simp)
      · have hne : normImp a ≠ normImp y := by
          intro heq
          exact dedupLoop_keys_fresh xs _ y hy (heq ▸ List.mem_cons_self _ _)
        rw [List.find?_cons_of_neg _ (by simpa using hne), ih _ y hy]

/-! ## Claims -/

/-- Claim C1: for every analysis run, the consensus score is the arithmetic
mean of the scores of the backends that succeeded, rounded to one decimal
place; failed backends are excluded, and when every backend failed the
consensus score is 0.  With backend scores [60, 80, 100] the consensus is
80.0, and with one failed backend and one score of 70 it is 70.0. -/
theorem claim1_consensus_score :
    (∀ (enum : List String → List String)
        (results : List (String × Except String Critique)),
      (analyze enum results).consensus_score =
        if successScores results = [] then 0
        else roundTo1 ((successScores results).sum / (successScores results).length)) ∧
    (∀ enum, (analyze enum [("gemini", .ok (critWithScore 60)),
      ("openai", .ok (critWithScore 80)),
      ("anthropic", .ok (critWithScore 100))]).consensus_score = 80) ∧
    (∀ enum, (analyze enum [("gemini", .error ("boom")),
      ("openai", .ok (critWithScore 70))]).consensus_score = 70) := by
  refine ⟨?_, fun enum => ?_, fun enum => ?_⟩
  · intro enum results
    simp only [analyze, gather_scores]
    by_cases h : successScores results = []
    · simp [h, roundTo1_zero]
    · simp [h]
  · simp [analyze, gather, critWithScore, roundTo1, roundHalfEven]
    norm_num
  · simp [analyze, gather, critWithScore, roundTo1, roundHalfEven]
    norm_num

/-- Claim C3: every backend response passing validation stores the score
clamped as max(0, min(100, score)), which lies in [0, 100], for any numeric
input score. -/
theorem claim3_score_clamped (j : JVal) (c : ParsedCritique)
    (h : parse_response j = .ok c) :
    (0 ≤ c.score ∧ c.score ≤ 100) ∧
    ∃ fields sv s, j = .obj fields ∧ jget fields ("score") = some sv ∧
      sv.numVal = some s ∧ c.score = max 0 (min 100 s) := by
  cases j with
  | obj fields =>
    simp only [parse_response] at h
    split at h <;> try exact Except.noConfusion h
    split at h <;> try exact Except.noConfusion h
    split at h <;> try exact Except.noConfusion h
    split at h <;> try exact Except.noConfusion h
    split at h <;> try exact Except.noConfusion h
    simp only [Except.ok.injEq] at h
    subst h
    exact ⟨⟨le_max_left _ _, max_le (by norm_num) (min_le_left _ _)⟩,
      fields, _, _, rfl, by assumption, by assumption, rfl⟩
  | num q => exact absurd h (by simp [parse_response])
  | str s => exact absurd h (by simp [parse_response])
  | boolean b => exact absurd h (by simp [parse_response])
  | null => exact absurd h (by simp [parse_response])
  | arr items => exact absurd h (by simp [parse_response])

/-- Witness for C3 at a response with score 150. -/
theorem claim3_witness :
    (0 ≤ cOver.score ∧ cOver.score ≤ 100) ∧
    ∃ fields sv s, jOver = .obj fields ∧ jget fields ("score") = some sv ∧
      sv.numVal = some s ∧ cOver.score = max 0 (min 100 s) :=
  claim3_score_clamped jOver cOver rfl

/-- Claim C4: combined_improvements is the first-occurrence deduplication
(after lower-casing and trimming) of all improvements of the successful
backends in backend order, and the editor-facing improvements list is its
first 5 entries; the worked three-entry example collapses to one entry. -/
theorem claim4_combined_improvements :
    (∀ (enum : List String → List String)
        (results : List (String × Except String Critique)),
      firstOccurrenceDedup (allSuccessImprovements results)
        ((analyze enum results).combined_improvements) ∧
      (analyze enum results).improvements =
        ((analyze enum results).combined_improvements).take 5) ∧
    (∀ enum, (analyze enum [("gemini", .ok critBoost)]).combined_improvements =
      ["Boost contrast"]) := by
  constructor
  · intro enum results
    have hc : (analyze enum results).combined_improvements =
        dedupLoop [] (allSuccessImprovements results) := by
      simp only [analyze, gather_improvements]
    constructor
    · rw [hc]
      refine ⟨dedupLoop_sublist _ _, dedupLoop_keys_nodup _ _, ?_, ?_⟩
      · intro x hx
        rcases dedupLoop_covers _ [] x hx with hmem | hex
        · simp at hmem
        · exact hex
      · intro y hy
        exact dedupLoop_first _ [] y hy
    · simp only [analyze]
  · intro enum
    show dedupLoop [] (gather [("gemini", .ok critBoost)]).allImprovements =
      ["Boost contrast"]
    decide

/-- Witness for C4 at a single backend whose improvements repeat the same
entry in three spellings (set order instantiated to first-occurrence). -/
theorem claim4_witness :
    firstOccurrenceDedup (allSuccessImprovements [("gemini", .ok critBoost)])
      ((analyze (dedupKey id) [("gemini", .ok critBoost)]).combined_improvements) ∧
    (analyze (dedupKey id) [("gemini", .ok critBoost)]).improvements =
      ((analyze (dedupKey id)
        [("gemini", .ok critBoost)]).combined_improvements).take 5 :=
  claim4_combined_improvements.1 (dedupKey id) [("gemini", .ok critBoost)]

/-- Claim C7 fails on the code: a valid response with an empty improvements
list parses to a critique whose improvements list is still empty — no
default is synthesized in `_parse_response` (the repository test
test_score_normalization_above_100 exercises exactly this shape). -/
theorem claim7_counterexample :
    parse_response jEmptyImp = .ok cEmptyImp ∧ cEmptyImp.improvements = [] :=
  ⟨rfl, rfl⟩

/-- Claim C7 amended: the non-empty guarantee holds at the editor instead —
the improvement list `_build_edit_prompt` enumerates is never empty, a
default subtle polish action being synthesized when nothing parses. -/
theorem claim7_amended :
    (∀ imps : List String, promptImprovements imps ≠ []) ∧
    promptImprovements [] = [defaultPromptImprovement] := by
  constructor
  · intro imps
    by_cases hp : imps.filterMap parsePromptImprovement = []
    · simp [promptImprovements, hp]
    · simp [promptImprovements, hp]
  · rfl

/-- Witness for C7 amended at an empty and a non-empty improvement list. -/
theorem claim7_amended_witness :
    promptImprovements [] ≠ [] ∧
    promptImprovements ["[SUBTLE] boost contrast"] ≠ [] :=
  ⟨claim7_amended.1 [], claim7_amended.1 ["[SUBTLE] boost contrast"]⟩

theorem retryAux_steps {α : Type} (op : Nat → Except String α) (f : ℚ) :
    ∀ (k attempt rl : Nat) (d : ℚ), k ≤ rl →
      (∀ j, j < k → ∃ e, op (attempt + j) = .error e ∧ isRetryable e = true) →
      retryAux op f attempt rl d =
        ((retryAux op f (attempt + k) (rl - k) (d * f ^ k)).1,
         (retryAux op f (attempt + k) (rl - k) (d * f ^ k)).2.1,
         (List.range k).map (fun j => d * f ^ j) ++
           (retryAux op f (attempt + k) (rl - k) (d * f ^ k)).2.2) := by
  intro k
  induction k with
  | zero =>
    intro attempt rl d _ _
    simp
  | succ k ih =>
    intro attempt rl d hk hfail
    obtain ⟨e, he, hr⟩ := hfail 0 (Nat.succ_pos k)
    obtain ⟨m, rfl⟩ : ∃ m, rl = m + 1 := ⟨rl - 1, by omega⟩
    rw [retryAux]
    simp only [Nat.add_zero] at he
    simp only [he, hr, if_true]
    have step := ih (attempt + 1) m (d * f) (by omega) (fun j hj => by
      have hj2 := hfail (j + 1) (by omega)
      simpa [show attempt + (j + 1) = attempt + 1 + j by omega] using hj2)
    rw [step]
    have hA : attempt + 1 + k = attempt + (k + 1) := by omega
    have hB : m - k = m + 1 - (k + 1) := by omega
    have hC : d * f * f ^ k = d * f ^ (k + 1) := by ring
    have hD : d :: (List.range k).map (fun j => d * f * f ^ j) =
        (List.range (k + 1)).map (fun j => d * f ^ j) := by
      rw [List.range_succ_eq_map, List.map_cons, List.map_map]
      simp only [pow_zero, mul_one]
      congr 1
      apply List.map_congr_left
      intro j _
      simp only [Function.comp_apply, Nat.succ_eq_add_one]
      ring
    rw [hA, hB, hC, ← hD, List.cons_append]

/-- Claim C2 as stated fails on the code: the fixed pattern set the claim
lists omits the too-many-requests pattern, so an error reading
too many requests matches none of the listed patterns yet utils.py retries
it — the operation is invoked 4 times, not once. -/
theorem claim2_counterexample :
    claimedRetryable ("too many requests") = false ∧
    (retry_with_backoff (fun _ => (.error ("too many requests") : Except String Nat))
      3 2 2).2.1 = 4 := by
  constructor
  · decide
  · rfl

/-- Claim C2 amended: the retryable pattern set additionally contains
too many requests (see `isRetryable`).  With that amendment the claim
holds: after `k` retryable failures the operation is re-invoked with
geometrically growing sleeps; a success at attempt `k` returns its value
having made `k + 1` calls; a non-retryable error or exhausted retries
propagates the final error after `k + 1` calls. -/
theorem claim2_retry {α : Type} (op : Nat → Except String α)
    (maxRetries k : Nat) (d f : ℚ) (hk : k ≤ maxRetries)
    (hfail : ∀ j, j < k → ∃ e, op j = .error e ∧ isRetryable e = true) :
    (∀ v, op k = .ok v →
      retry_with_backoff op maxRetries d f = (.ok v, k + 1, geomDelays d f k)) ∧
    (∀ e, op k = .error e → isRetryable e = false →
      retry_with_backoff op maxRetries d f = (.error e, k + 1, geomDelays d f k)) ∧
    (k = maxRetries → ∀ e, op k = .error e →
      retry_with_backoff op maxRetries d f = (.error e, k + 1, geomDelays d f k)) := by
  have base := retryAux_steps op f k 0 maxRetries d hk (by simpa using hfail)
  simp only [Nat.zero_add] at base
  refine ⟨?_, ?_, ?_⟩
  · intro v hv
    have hR : retryAux op f k (maxRetries - k) (d * f ^ k) = (.ok v, k + 1, []) := by
      rw [retryAux]
      simp [hv]
    rw [retry_with_backoff, base, hR]
    simp [geomDelays]
  · intro e he hre
    have hR : retryAux op f k (maxRetries - k) (d * f ^ k) =
        (.error e, k + 1, []) := by
      rw [retryAux]
      cases hmr : maxRetries - k with
      | zero => simp [he]
      | succ n => simp [he, hre]
    rw [retry_with_backoff, base, hR]
    simp [geomDelays]
  · intro hkm e he
    have hR : retryAux op f k (maxRetries - k) (d * f ^ k) =
        (.error e, k + 1, []) := by
      rw [retryAux]
      simp [he, show maxRetries - k = 0 by omega]
    rw [retry_with_backoff, base, hR]
    simp [geomDelays]

/-- Witness for C2 amended: an operation raising a 429 error twice then
succeeding is called exactly 3 times, returns the success value, and sleeps
2s then 4s; an operation raising a non-retryable error is called once. -/
theorem claim2_retry_witness :
    retry_with_backoff exampleOp429 3 2 2 = (.ok 7, 3, [2, 4]) ∧
    retry_with_backoff exampleOpBad 3 2 2 = (.error ("bad input"), 1, []) := by
  constructor
  · have hf : ∀ j, j < 2 → ∃ e, exampleOp429 j = .error e ∧ isRetryable e = true := by
      intro j hj
      refine ⟨"429 too many requests", ?_, by decide⟩
      interval_cases j <;> rfl
    have h := (claim2_retry exampleOp429 3 2 2 2 (by norm_num) hf).1 7 rfl
    rw [h]
    norm_num [geomDelays, List.range_succ]
  · have h := (claim2_retry exampleOpBad 3 0 2 2 (by norm_num)
      (fun j hj => absurd hj (Nat.not_lt_zero j))).2.1 "bad input" rfl (by decide)
    rw [h]
    norm_num [geomDelays]

theorem filter_orderedInsert_prio (p : ℚ) (x : JVal) (l : List JVal) :
    (List.orderedInsert prioLE x l).filter (fun o => decide (getPriority o = p)) =
      if getPriority x = p then
        x :: l.filter (fun o => decide (getPriority o = p))
      else l.filter (fun o => decide (getPriority o = p)) := by
  induction l with
  | nil =>
    by_cases hx : getPriority x = p <;> simp [List.orderedInsert, hx]
  | cons y ys ih =>
    simp only [List.orderedInsert]
    by_cases hle : prioLE x y
    · by_cases hx : getPriority x = p <;> by_cases hy : getPriority y = p <;>
        simp [hle, hx, hy, List.filter_cons]
    · have hlt : getPriority y < getPriority x :=
        not_le.mp (fun hc => hle hc)
      rw [if_neg hle]
      by_cases hx : getPriority x = p
      · have hy : getPriority y ≠ p := by
          rw [← hx]; exact ne_of_lt hlt
        simp [List.filter_cons, hy, ih, hx]
      · simp [List.filter_cons, ih, hx]

theorem filter_sortByPriority (p : ℚ) (l : List JVal) :
    (sortByPriority l).filter (fun o => decide (getPriority o = p)) =
      l.filter (fun o => decide (getPriority o = p)) := by
  induction l with
  | nil => rfl
  | cons x xs ih =>
    simp only [sortByPriority, List.insertionSort] at ih ⊢
    rw [filter_orderedInsert_prio]
    by_cases hx : getPriority x = p <;> simp [hx, ih, List.filter_cons]

theorem parse_response_improvements (fields : List (String × JVal))
    (c : ParsedCritique) (h : parse_response (.obj fields) = .ok c) :
    ∃ l, jget fields ("improvements") = some (.arr l) ∧
      handleImprovements l = .ok (c.improvements, c.improvementsDetailed) := by
  simp only [parse_response] at h
  split at h <;> try exact Except.noConfusion h
  split at h <;> try exact Except.noConfusion h
  split at h <;> try exact Except.noConfusion h
  split at h <;> try exact Except.noConfusion h
  split at h <;> try exact Except.noConfusion h
  simp only [Except.ok.injEq] at h
  subst h
  exact ⟨_, by assumption, by assumption⟩

/-- Claim C5: when the validated improvements entries are structured
objects, the retained structured list is the stable ascending sort of the
entries by priority (default 5, lower first, ties in input order: the
sorted list is a permutation, it is sorted, and the entries of each single
priority keep their input order), and the improvements list is the
intensity-tagged rewrite of that sorted list; plain-string improvement
entries are left unchanged (and no detailed list is produced); the
priorities-[3,1,2] example produces the strings in order priority-1,
priority-2, priority-3. -/
theorem claim5_structured_sorted (fields : List (String × JVal))
    (c : ParsedCritique) (l : List JVal)
    (h : parse_response (.obj fields) = .ok c)
    (himps : jget fields ("improvements") = some (.arr l)) :
    (l ≠ [] → (∀ x ∈ l, x.isObj = true) →
      c.improvementsDetailed = sortByPriority l ∧
      c.improvements = (sortByPriority l).map
        (fun o => JVal.str (renderImprovement o)) ∧
      (sortByPriority l).Perm l ∧
      (sortByPriority l).Sorted prioLE ∧
      (∀ p : ℚ, (sortByPriority l).filter (fun o => decide (getPriority o = p)) =
        l.filter (fun o => decide (getPriority o = p)))) ∧
    ((∀ x ∈ l, ∃ s, x = JVal.str s) →
      c.improvements = l ∧ c.improvementsDetailed = []) ∧
    parse_response jPrio = .ok cPrio := by
  obtain ⟨l2, hl2, hh⟩ := parse_response_improvements fields c h
  have hll : l = l2 := by
    have := himps.symm.trans hl2
    simpa using this
  subst hll
  refine ⟨?_, ?_, rfl⟩
  · intro hne hall
    cases l with
    | nil => exact absurd rfl hne
    | cons o rest =>
      have hobj : o.isObj = true := hall o (List.mem_cons_self _ _)
      cases o with
      | obj f0 =>
        have hallb : ((JVal.obj f0) :: rest).all JVal.isObj = true :=
          List.all_eq_true.mpr hall
        rw [handleImprovements, if_pos hallb] at hh
        simp only [Except.ok.injEq, Prod.mk.injEq] at hh
        obtain ⟨himp, hdet⟩ := hh
        exact ⟨hdet.symm, himp.symm, List.perm_insertionSort _ _,
          List.sorted_insertionSort _ _, fun p => filter_sortByPriority p _⟩
      | num q => exact absurd hobj (by simp [JVal.isObj])
      | str s => exact absurd hobj (by simp [JVal.isObj])
      | boolean b => exact absurd hobj (by simp [JVal.isObj])
      | null => exact absurd hobj (by simp [JVal.isObj])
      | arr items => exact absurd hobj (by simp [JVal.isObj])
  · intro hstr
    cases l with
    | nil =>
      simp only [handleImprovements, Except.ok.injEq, Prod.mk.injEq] at hh
      exact ⟨hh.1.symm, hh.2.symm⟩
    | cons o rest =>
      obtain ⟨s0, rfl⟩ := hstr o (List.mem_cons_self _ _)
      simp only [handleImprovements, Except.ok.injEq, Prod.mk.injEq] at hh
      exact ⟨hh.1.symm, hh.2.symm⟩

/-- Witness for C5 at the priorities-[3,1,2] structured response and at the
plain-string two-entry response. -/
theorem claim5_witness :
    (cPrio.improvementsDetailed = sortByPriority [impLow, impHigh, impMed] ∧
      cPrio.improvements = (sortByPriority [impLow, impHigh, impMed]).map
        (fun o => JVal.str (renderImprovement o)) ∧
      (sortByPriority [impLow, impHigh, impMed]).Perm [impLow, impHigh, impMed] ∧
      (sortByPriority [impLow, impHigh, impMed]).Sorted prioLE) ∧
    (cLegacy.improvements =
        [.str ("Increase brightness"), .str ("Boost contrast")] ∧
      cLegacy.improvementsDetailed = []) := by
  constructor
  · have h := (claim5_structured_sorted fieldsPrio cPrio [impLow, impHigh, impMed]
      rfl rfl).1 (by simp) (by intro x hx; fin_cases hx <;> rfl)
    exact ⟨h.1, h.2.1, h.2.2.1, h.2.2.2.1⟩
  · exact (claim5_structured_sorted fieldsLegacy cLegacy
      [.str ("Increase brightness"), .str ("Boost contrast")] rfl rfl).2.1
      (by intro x hx; fin_cases hx <;> exact ⟨_, rfl⟩)

/-- Claim C6: when no generation pass produces valid image bytes (missing
data, decode failure, or the byte-size/verify sanity check failing), the
deterministic fallback enhancement becomes the final saved result and the
edit call still reports success; only when the fallback itself fails does
the edit call report failure. -/
theorem claim6_edit_fallback (env : EditEnv) (numPasses : Nat)
    (hopen : env.openOk = true) (hnv : noValidGenerated env numPasses) :
    (env.fallbackOk = true → edit env numPasses = (true, some .fallback)) ∧
    (env.fallbackOk = false → edit env numPasses = (false, none)) := by
  obtain ⟨dataOpt, hloop, hsave⟩ := hnv
  constructor
  · intro hfb
    simp only [edit, hopen, if_true, hloop, hsave, fallbackResult, hfb]
  · intro hfb
    simp only [edit, hopen, if_true, hloop, hsave, fallbackResult, hfb]
    simp

/-- Witness for C6: an environment whose passes all yield no image data and
whose fallback succeeds. -/
theorem claim6_witness :
    (fbEnv.fallbackOk = true → edit fbEnv 1 = (true, some .fallback)) ∧
    (fbEnv.fallbackOk = false → edit fbEnv 1 = (false, none)) :=
  claim6_edit_fallback fbEnv 1 rfl ⟨none, rfl, rfl⟩

/-- Claim C9 as stated fails on the code: extension matching is not
case-insensitive.  pipeline.py compares the raw suffix against an explicit
set of all-lower-case and all-upper-case variants, so the mixed-case file
photo.Jpg is not discovered although the claim says it would be. -/
theorem claim9_counterexample :
    get_new_images false [⟨"photo.Jpg", true⟩] = [] ∧
    claimedDiscovery false [⟨"photo.Jpg", true⟩] = ["photo.Jpg"] := by
  constructor
  · decide
  · decide

/-- Claim C9 amended: discovery returns exactly the plain files of the inbox
whose name does not start with a dot and whose suffix is one of the
recognized extensions written either fully lower-case or fully upper-case
(jpg/jpeg/png/webp, plus heic/heif when the decoder is available), sorted
by name. -/
theorem claim9_discovery (heic : Bool) (entries : List DirEntry) :
    (get_new_images heic entries).Sorted pyLE ∧
    (∀ n, n ∈ get_new_images heic entries ↔
      ∃ e ∈ entries, e.name = n ∧ e.isFile = true ∧
        pyStartsWith n (".") = false ∧ pathSuffix n ∈ imageExtensions heic) := by
  constructor
  · exact List.sorted_insertionSort pyLE _
  · intro n
    rw [get_new_images, List.Perm.mem_iff (List.perm_insertionSort pyLE _)]
    simp only [List.mem_map, List.mem_filter]
    constructor
    · rintro ⟨e, ⟨he, hcond⟩, rfl⟩
      simp only [decide_eq_true_eq] at hcond
      exact ⟨e, he, rfl, by simpa using hcond.1, hcond.2.2, hcond.2.1⟩
    · rintro ⟨e, he, rfl, hf, hh, hs⟩
      exact ⟨e, ⟨he, by simp [hf, hh, hs]⟩, rfl⟩

/-- Witness for C9 amended at a two-file inbox. -/
theorem claim9_witness :
    List.Sorted pyLE (get_new_images false [⟨"b.png", true⟩, ⟨"a.JPG", true⟩]) ∧
    (("a.JPG" : String) ∈ get_new_images false [⟨"b.png", true⟩, ⟨"a.JPG", true⟩] ↔
      ∃ e ∈ ([⟨"b.png", true⟩, ⟨"a.JPG", true⟩] : List DirEntry),
        e.name = "a.JPG" ∧ e.isFile = true ∧
          pyStartsWith ("a.JPG") (".") = false ∧
          pathSuffix ("a.JPG") ∈ imageExtensions false) :=
  ⟨(claim9_discovery false _).1, (claim9_discovery false _).2 ("a.JPG")⟩

theorem chunkList_flatten (cs : Nat) (hcs : 1 ≤ cs) :
    ∀ l : List String, (chunkList cs l).flatten = l := by
  have main : ∀ n (l : List String), l.length ≤ n →
      (chunkList cs l).flatten = l := by
    intro n
    induction n with
    | zero =>
      intro l hl
      cases l with
      | nil => simp [chunkList]
      | cons x xs => simp at hl
    | succ n ih =>
      intro l hl
      cases l with
      | nil => simp [chunkList]
      | cons x xs =>
        obtain ⟨k, rfl⟩ : ∃ k, cs = k + 1 := ⟨cs - 1, by omega⟩
        simp only [chunkList, List.flatten_cons, Nat.add_sub_cancel]
        rw [ih (xs.drop k) (by simp [List.length_drop]; simp at hl; omega)]
        rw [List.take_succ_cons, List.cons_append, List.take_append_drop]
  exact fun l => main l.length l le_rfl

theorem chunkList_count (cs : Nat) (hcs : 1 ≤ cs) :
    ∀ (p : Nat) (l : List String), l.length ≤ cs * p →
      (chunkList cs l).length ≤ p := by
  intro p
  induction p with
  | zero =>
    intro l hl
    cases l with
    | nil => simp [chunkList]
    | cons x xs => simp at hl
  | succ p ih =>
    intro l hl
    cases l with
    | nil => simp [chunkList]
    | cons x xs =>
      simp only [chunkList, List.length_cons]
      have hrest : (xs.drop (cs - 1)).length ≤ cs * p := by
        have h1 : xs.length + 1 ≤ cs * (p + 1) := by simpa using hl
        rw [Nat.mul_succ] at h1
        simp only [List.length_drop]
        omega
      have := ih _ hrest
      omega

theorem chunkList_nonempty (cs : Nat) (hcs : 1 ≤ cs) :
    ∀ l, ∀ c ∈ chunkList cs l, c ≠ [] := by
  have main : ∀ n (l : List String), l.length ≤ n →
      ∀ c ∈ chunkList cs l, c ≠ [] := by
    intro n
    induction n with
    | zero =>
      intro l hl c hc
      cases l with
      | nil => simp [chunkList] at hc
      | cons x xs => simp at hl
    | succ n ih =>
      intro l hl c hc
      cases l with
      | nil => simp [chunkList] at hc
      | cons x xs =>
        simp only [chunkList] at hc
        rcases List.mem_cons.mp hc with rfl | hc
        · obtain ⟨k, rfl⟩ : ∃ k, cs = k + 1 := ⟨cs - 1, by omega⟩
          simp [List.take_succ_cons]
        · refine ih (xs.drop (cs - 1)) ?_ c hc
          simp only [List.length_drop]
          simp at hl
          omega
  exact fun l => main l.length l le_rfl

/-- Claim C10: chunking is a partition of the improvement list — the chunks
concatenate back to the input, there are at most maxPasses chunks (the
constructor guarantees maxPasses at least 1 via max(1, parsed value)), and
for a non-empty input every chunk is non-empty. -/
theorem claim10_chunking (maxPasses : Nat) (improvements : List String)
    (h : 1 ≤ maxPasses) :
    (chunk_improvements maxPasses improvements).flatten = improvements ∧
    (chunk_improvements maxPasses improvements).length ≤ maxPasses ∧
    (improvements ≠ [] →
      ∀ c ∈ chunk_improvements maxPasses improvements, c ≠ []) := by
  unfold chunk_improvements
  by_cases hcase : maxPasses ≤ 1 ∨ improvements.length ≤ 1
  · rw [if_pos hcase]
    refine ⟨by simp, by simpa using h, ?_⟩
    intro hne c hc
    simp only [List.mem_singleton] at hc
    subst hc
    exact hne
  · rw [if_neg hcase]
    push_neg at hcase
    obtain ⟨hmp, hlen⟩ := hcase
    have hbound : improvements.length ≤
        max 1 ((improvements.length + maxPasses - 1) / maxPasses) * maxPasses := by
      have hdm := Nat.div_add_mod (improvements.length + maxPasses - 1) maxPasses
      have hmod := Nat.mod_lt (improvements.length + maxPasses - 1)
        (show 0 < maxPasses by omega)
      have h1 : improvements.length ≤
          maxPasses * ((improvements.length + maxPasses - 1) / maxPasses) := by
        omega
      calc improvements.length
          ≤ maxPasses * ((improvements.length + maxPasses - 1) / maxPasses) := h1
        _ ≤ maxPasses * max 1 ((improvements.length + maxPasses - 1) / maxPasses) :=
            Nat.mul_le_mul_left _ (le_max_right _ _)
        _ = max 1 ((improvements.length + maxPasses - 1) / maxPasses) * maxPasses :=
            Nat.mul_comm _ _
    exact ⟨chunkList_flatten _ (le_max_left _ _) improvements,
      chunkList_count _ (le_max_left _ _) maxPasses improvements hbound,
      fun _ => chunkList_nonempty _ (le_max_left _ _) improvements⟩

/-- Witness for C10 at two passes over a three-entry list. -/
theorem claim10_witness :
    (chunk_improvements 2 ["a", "b", "c"]).flatten = ["a", "b", "c"] ∧
    (chunk_improvements 2 ["a", "b", "c"]).length ≤ 2 ∧
    ((["a", "b", "c"] : List String) ≠ [] →
      ∀ c ∈ chunk_improvements 2 ["a", "b", "c"], c ≠ []) :=
  claim10_chunking 2 ["a", "b", "c"] (by norm_num)

theorem firstMaxAux_decomp (f : String → Nat) :
    ∀ (l : List String) (cur : String),
      ∃ l1 l2, cur :: l = l1 ++ firstMaxAux f cur l :: l2 ∧
        (∀ z ∈ l1, f z < f (firstMaxAux f cur l)) ∧
        (∀ z ∈ l2, f z ≤ f (firstMaxAux f cur l)) := by
  intro l
  induction l with
  | nil =>
    intro cur
    exact ⟨[], [], rfl, by simp, by simp⟩
  | cons y ys ih =>
    intro cur
    simp only [firstMaxAux]
    by_cases hy : f cur < f y
    · rw [if_pos hy]
      obtain ⟨l1, l2, hsplit, hlt, hle⟩ := ih y
      refine ⟨cur :: l1, l2, by rw [List.cons_append, ← hsplit], ?_, hle⟩
      intro z hz
      rcases List.mem_cons.mp hz with rfl | hz
      · cases l1 with
        | nil =>
          simp only [List.nil_append] at hsplit
          injection hsplit with h1 h2
          rw [← h1]
          exact hy
        | cons a l1' =>
          injection hsplit with h1 h2
          have hfa := hlt a (List.mem_cons_self _ _)
          rw [← h1] at hfa
          omega
      · exact hlt z hz
    · rw [if_neg hy]
      obtain ⟨l1, l2, hsplit, hlt, hle⟩ := ih cur
      cases l1 with
      | nil =>
        simp only [List.nil_append] at hsplit
        injection hsplit with h1 h2
        refine ⟨[], y :: l2, ?_, by simp, ?_⟩
        · simp only [List.nil_append]
          rw [← h1, ← h2]
        · intro z hz
          rcases List.mem_cons.mp hz with rfl | hz
          · rw [← h1]
            omega
          · exact hle z hz
      | cons a l1' =>
        injection hsplit with h1 h2
        have h2' : ys = l1' ++ firstMaxAux f cur ys :: l2 := h2
        have hfa := hlt a (List.mem_cons_self _ _)
        rw [← h1] at hfa
        refine ⟨cur :: y :: l1', l2, ?_, ?_, hle⟩
        · rw [List.cons_append, List.cons_append, ← h2']
        · intro z hz
          rcases List.mem_cons.mp hz with rfl | hz
          · exact hfa
          · rcases List.mem_cons.mp hz with rfl | hz
            · omega
            · exact hlt z (List.mem_cons_of_mem _ hz)

theorem firstMaxAux_mem (f : String → Nat) (l : List String) (cur : String) :
    firstMaxAux f cur l ∈ cur :: l := by
  obtain ⟨l1, l2, hsplit, _, _⟩ := firstMaxAux_decomp f l cur
  rw [hsplit]
  exact List.mem_append_right _ (List.mem_cons_self _ _)

theorem firstMaxAux_max (f : String → Nat) (l : List String) (cur : String) :
    ∀ z ∈ cur :: l, f z ≤ f (firstMaxAux f cur l) := by
  obtain ⟨l1, l2, hsplit, hlt, hle⟩ := firstMaxAux_decomp f l cur
  intro z hz
  rw [hsplit] at hz
  rcases List.mem_append.mp hz with hz | hz
  · exact le_of_lt (hlt z hz)
  · rcases List.mem_cons.mp hz with rfl | hz
    · exact le_refl _
    · exact hle z hz

theorem dedupKey_sublist (key : String → String) :
    ∀ l, (dedupKey key l).Sublist l := by
  have main : ∀ n l, l.length ≤ n → (dedupKey key l).Sublist l := by
    intro n
    induction n with
    | zero =>
      intro l hl
      cases l with
      | nil => simp [dedupKey]
      | cons x xs => simp at hl
    | succ n ih =>
      intro l hl
      cases l with
      | nil => simp [dedupKey]
      | cons x xs =>
        simp only [dedupKey]
        refine List.Sublist.cons₂ x ?_
        refine (ih _ ?_).trans (List.filter_sublist xs)
        have := List.length_filter_le (fun y => decide (key y ≠ key x)) xs
        simp at hl
        omega
  exact fun l => main l.length l le_rfl

theorem dedupKey_id_mem :
    ∀ (l : List String) (x : String), x ∈ dedupKey id l ↔ x ∈ l := by
  have main : ∀ n (l : List String), l.length ≤ n →
      ∀ x, x ∈ dedupKey id l ↔ x ∈ l := by
    intro n
    induction n with
    | zero =>
      intro l hl x
      cases l with
      | nil => simp [dedupKey]
      | cons y ys => simp at hl
    | succ n ih =>
      intro l hl x
      cases l with
      | nil => simp [dedupKey]
      | cons y ys =>
        simp only [dedupKey, List.mem_cons]
        have hlen : (ys.filter (fun z => decide (id z ≠ id y))).length ≤ n := by
          have := List.length_filter_le (fun z => decide (id z ≠ id y)) ys
          simp at hl
          omega
        rw [ih _ hlen x]
        by_cases hxy : x = y
        · subst hxy
          simp
        · simp only [List.mem_filter, id, decide_eq_true_eq]
          constructor
          · rintro (rfl | ⟨hx, _⟩)
            · exact Or.inl rfl
            · exact Or.inr hx
          · rintro (rfl | hx)
            · exact Or.inl rfl
            · exact Or.inr ⟨hx, hxy⟩
  exact fun l => main l.length l le_rfl

theorem dedupKey_id_nodup : ∀ l : List String, (dedupKey id l).Nodup := by
  have main : ∀ n (l : List String), l.length ≤ n → (dedupKey id l).Nodup := by
    intro n
    induction n with
    | zero =>
      intro l hl
      cases l with
      | nil => simp [dedupKey]
      | cons y ys => simp at hl
    | succ n ih =>
      intro l hl
      cases l with
      | nil => simp [dedupKey]
      | cons y ys =>
        simp only [dedupKey]
        have hlen : (ys.filter (fun z => decide (id z ≠ id y))).length ≤ n := by
          have := List.length_filter_le (fun z => decide (id z ≠ id y)) ys
          simp at hl
          omega
        refine List.Nodup.cons ?_ (ih _ hlen)
        intro hc
        have := (dedupKey_id_mem _ y).mp hc
        simp at this
  exact fun l => main l.length l le_rfl

theorem dedupKey_id_setEnum (values : List String) :
    SetEnum values (dedupKey id values) :=
  ⟨dedupKey_id_nodup values, dedupKey_id_mem values⟩

theorem mostCommon_spec (enum : List String → List String)
    (values : List String) (hse : SetEnum values (enum values))
    (hne : values ≠ []) :
    ∃ v, mostCommon enum values = some v ∧ v ∈ values ∧
      ∀ w ∈ values, values.count w ≤ values.count v := by
  obtain ⟨hnd, hmem⟩ := hse
  obtain ⟨x, xs, hdk⟩ : ∃ x xs, enum values = x :: xs := by
    cases he : enum values with
    | nil =>
      exfalso
      obtain ⟨a, ha⟩ := List.exists_mem_of_ne_nil values hne
      have hae : a ∈ enum values := (hmem a).mpr ha
      rw [he] at hae
      simp at hae
    | cons a as => exact ⟨a, as, rfl⟩
  have hfm : mostCommon enum values =
      some (firstMaxAux (fun v => values.count v) x xs) := by
    rw [mostCommon, hdk, firstMax]
  refine ⟨firstMaxAux (fun v => values.count v) x xs, hfm, ?_, ?_⟩
  · have := firstMaxAux_mem (fun v => values.count v) xs x
    rw [← hdk] at this
    exact (hmem _).mp this
  · intro w hw
    have hwdk : w ∈ x :: xs := by
      rw [← hdk]
      exact (hmem w).mpr hw
    exact firstMaxAux_max (fun v => values.count v) xs x w hwdk

theorem lookup_filterMap_none (F : String → Option String) (fld : String) :
    ∀ gs : List String, fld ∉ gs →
      List.lookup fld (gs.filterMap (fun g => (F g).map (fun v => (g, v)))) =
        none := by
  intro gs
  induction gs with
  | nil => intro _; rfl
  | cons g gs ih =>
    intro hnm
    have hne : fld ≠ g := fun hc => hnm (hc ▸ List.mem_cons_self _ _)
    have hnm2 : fld ∉ gs := fun hc => hnm (List.mem_cons_of_mem _ hc)
    cases hF : F g with
    | none => simpa [List.filterMap_cons, hF] using ih hnm2
    | some v =>
      simp [List.filterMap_cons, hF, List.lookup_cons, beq_false_of_ne hne,
        ih hnm2]

theorem lookup_filterMap (F : String → Option String) :
    ∀ flds : List String, flds.Nodup → ∀ fld ∈ flds,
      List.lookup fld (flds.filterMap (fun g => (F g).map (fun v => (g, v)))) =
        F fld := by
  intro flds
  induction flds with
  | nil => intro _ fld hf; simp at hf
  | cons g gs ih =>
    intro hnd fld hfld
    obtain ⟨hgm, hnd2⟩ := List.nodup_cons.mp hnd
    rcases List.mem_cons.mp hfld with rfl | hfld
    · cases hF : F fld with
      | some v => simp [List.filterMap_cons, hF, List.lookup_cons]
      | none =>
        simp only [List.filterMap_cons, hF, Option.map_none']
        rw [lookup_filterMap_none F fld gs hgm]
    · have hne : fld ≠ g := fun hc => hgm (hc ▸ hfld)
      cases hF : F g with
      | none =>
        simp only [List.filterMap_cons, hF, Option.map_none']
        exact ih hnd2 fld hfld
      | some v =>
        simp only [List.filterMap_cons, hF, Option.map_some']
        rw [List.lookup_cons]
        simp only [beq_false_of_ne hne]
        exact ih hnd2 fld hfld

/-- Claim C8 as stated fails on the code: the genre tie-break is not
first-encountered-max.  The code takes max(set(genres), key=genres.count)
and CPython iterates the set in an unspecified, hash-randomized order, so
on a count tie any maximal value can win.  `enumSwap` is a valid
set-iteration order (every list it returns enumerates exactly the distinct
input values) under which the two tied genres of [ctxP, ctxL] come
later-encountered-first, and the merged genre is landscape although
portrait was encountered first. -/
theorem claim8_counterexample :
    (∀ values, SetEnum values (enumSwap values)) ∧
    genresOf [ctxP, ctxL] = ["portrait", "landscape"] ∧
    (genresOf [ctxP, ctxL]).count ("portrait") =
      (genresOf [ctxP, ctxL]).count ("landscape") ∧
    (merge_contexts enumSwap [ctxP, ctxL]).genre = "landscape" := by
  refine ⟨?_, by decide, by decide, by decide⟩
  intro values
  by_cases hv : values = ["portrait", "landscape"]
  · subst hv
    constructor
    · decide
    · intro x
      simp [enumSwap, or_comm]
  · rw [enumSwap, if_neg hv]
    exact dedupKey_id_setEnum values

/-- Claim C8 amended: for every set-iteration order the execution could
observe, the merged context has a most frequent non-empty genre (which
maximal-count value is chosen on ties depends on the unspecified set
order), the single longest non-empty subject and mood, the
order-preserving duplicate-free union of the preserve lists, and per
technical field a most frequent non-empty reported value. -/
theorem claim8_merge_contexts (enum : List String → List String)
    (hvalid : ∀ values, SetEnum values (enum values)) (ctxs : List Ctx) :
    (genresOf ctxs ≠ [] →
      (merge_contexts enum ctxs).genre ∈ genresOf ctxs ∧
      ∀ g ∈ genresOf ctxs, (genresOf ctxs).count g ≤
        (genresOf ctxs).count ((merge_contexts enum ctxs).genre)) ∧
    (subjectsOf ctxs ≠ [] →
      (merge_contexts enum ctxs).subject ∈ subjectsOf ctxs ∧
      ∀ s ∈ subjectsOf ctxs, s.length ≤ (merge_contexts enum ctxs).subject.length) ∧
    (moodsOf ctxs ≠ [] →
      (merge_contexts enum ctxs).mood ∈ moodsOf ctxs ∧
      ∀ s ∈ moodsOf ctxs, s.length ≤ (merge_contexts enum ctxs).mood.length) ∧
    ((merge_contexts enum ctxs).preserve.Sublist (preservesOf ctxs) ∧
      (merge_contexts enum ctxs).preserve.Nodup ∧
      ∀ x, x ∈ (merge_contexts enum ctxs).preserve ↔ x ∈ preservesOf ctxs) ∧
    (∀ fld ∈ techFields, techValuesOf ctxs fld ≠ [] →
      ∃ v, List.lookup fld (merge_contexts enum ctxs).technical = some v ∧
        v ∈ techValuesOf ctxs fld ∧
        ∀ w ∈ techValuesOf ctxs fld, (techValuesOf ctxs fld).count w ≤
          (techValuesOf ctxs fld).count v) := by
  refine ⟨?_, ?_, ?_, ⟨?_, ?_, ?_⟩, ?_⟩
  · intro hne
    obtain ⟨v, hv, hmem, hmax⟩ :=
      mostCommon_spec enum (genresOf ctxs) (hvalid _) hne
    have hg : (merge_contexts enum ctxs).genre = v := by
      simp [merge_contexts, hv]
    rw [hg]
    exact ⟨hmem, hmax⟩
  · intro hne
    obtain ⟨s, rest, hsr⟩ : ∃ s rest, subjectsOf ctxs = s :: rest := by
      cases hs : subjectsOf ctxs with
      | nil => exact absurd hs hne
      | cons a as => exact ⟨a, as, rfl⟩
    have hsub : (merge_contexts enum ctxs).subject =
        firstMaxAux String.length s rest := by
      simp [merge_contexts, hsr, firstMax]
    rw [hsub]
    constructor
    · rw [hsr]
      exact firstMaxAux_mem String.length rest s
    · intro t ht
      rw [hsr] at ht
      exact firstMaxAux_max String.length rest s t ht
  · intro hne
    obtain ⟨s, rest, hsr⟩ : ∃ s rest, moodsOf ctxs = s :: rest := by
      cases hs : moodsOf ctxs with
      | nil => exact absurd hs hne
      | cons a as => exact ⟨a, as, rfl⟩
    have hsub : (merge_contexts enum ctxs).mood =
        firstMaxAux String.length s rest := by
      simp [merge_contexts, hsr, firstMax]
    rw [hsub]
    constructor
    · rw [hsr]
      exact firstMaxAux_mem String.length rest s
    · intro t ht
      rw [hsr] at ht
      exact firstMaxAux_max String.length rest s t ht
  · show (dedupKey id (preservesOf ctxs)).Sublist (preservesOf ctxs)
    exact dedupKey_sublist id _
  · show (dedupKey id (preservesOf ctxs)).Nodup
    exact dedupKey_id_nodup _
  · intro x
    show x ∈ dedupKey id (preservesOf ctxs) ↔ x ∈ preservesOf ctxs
    exact dedupKey_id_mem _ x
  · intro fld hfld hne
    obtain ⟨v, hv, hmem, hmax⟩ :=
      mostCommon_spec enum (techValuesOf ctxs fld) (hvalid _) hne
    refine ⟨v, ?_, hmem, hmax⟩
    have hlk := lookup_filterMap
      (fun g => mostCommon enum (techValuesOf ctxs g)) techFields (by decide) fld hfld
    show List.lookup fld (techFields.filterMap (fun f =>
      (mostCommon enum (techValuesOf ctxs f)).map (fun v => (f, v)))) = some v
    rw [hlk]
    exact hv

/-- Witness for C8 amended at two concrete portrait contexts, with the set
order instantiated to first-occurrence enumeration (one valid order). -/
theorem claim8_witness :
    genresOf [ctxA, ctxB] ≠ [] ∧
    ((merge_contexts (dedupKey id) [ctxA, ctxB]).genre ∈ genresOf [ctxA, ctxB] ∧
      ∀ g ∈ genresOf [ctxA, ctxB], (genresOf [ctxA, ctxB]).count g ≤
        (genresOf [ctxA, ctxB]).count
          ((merge_contexts (dedupKey id) [ctxA, ctxB]).genre)) ∧
    ((merge_contexts (dedupKey id) [ctxA, ctxB]).subject ∈ subjectsOf [ctxA, ctxB] ∧
      ∀ s ∈ subjectsOf [ctxA, ctxB],
        s.length ≤ (merge_contexts (dedupKey id) [ctxA, ctxB]).subject.length) :=
  ⟨by decide,
    (claim8_merge_contexts (dedupKey id) dedupKey_id_setEnum [ctxA, ctxB]).1
      (by decide),
    (claim8_merge_contexts (dedupKey id) dedupKey_id_setEnum [ctxA, ctxB]).2.1
      (by decide)⟩

end Refract
